import Mathlib

/-!
Verification of the cognitive-physics framework core against its
natural-language specification.

The Python sources are shallowly embedded: Python floats become ℚ (for the
prediction engine, memory store and causality engine, whose arithmetic is
all rational) or ℝ (for the network propagator, which applies tanh);
Python dicts become association lists in insertion order (dict keys are
unique, which appears as `Nodup` hypotheses where a result depends on it);
bound methods become functions taking the object as first argument.
-/

namespace CogPhys

/-! ## Meta-law synthesis engine (src/meta_law_synthesis.py) -/

/-- The four universality classes of cognitive dynamics
(`UniversalityClass` enum). -/
inductive UniversalityClass where
  | GRAMMAR_STRUCTURAL
  | FAST_PROPAGATION
  | SLOW_MEMORY
  | DENSE_DYNAMICAL
deriving DecidableEq

/-- The string value of each enum member. -/
def UniversalityClass.value : UniversalityClass → String
  | .GRAMMAR_STRUCTURAL => "grammar_structural"
  | .FAST_PROPAGATION => "fast_propagation"
  | .SLOW_MEMORY => "slow_memory"
  | .DENSE_DYNAMICAL => "dense_dynamical"

/-- `MetaLawSynthesis.CLASS_THRESHOLDS`: the fixed per-class thresholds. -/
def CLASS_THRESHOLDS : UniversalityClass → ℚ
  | .GRAMMAR_STRUCTURAL => 3/1000
  | .FAST_PROPAGATION => 5/1000
  | .SLOW_MEMORY => 7/1000
  | .DENSE_DYNAMICAL => 10/1000

/-- One entry of the law registry: a display name, a description and a
boolean condition over (S, D, M). -/
structure Law where
  name : String
  description : String
  condition : ℚ → ℚ → ℚ → Bool

/-- `MetaLawSynthesis.LAWS`: the fixed law registry, in registration order
(Python dicts preserve insertion order). -/
def LAWS : List Law := [
  { name := "Structural Morality",
    description := "Morality emerges from network topology, not external rules",
    condition := fun s d _ => decide (s > 3/10 ∧ d > 2/10) },
  { name := "Observation Independence",
    description := "Emergence is observer-independent",
    condition := fun s d m => decide (s * d * m > 1/1000) },
  { name := "Causal Time",
    description := "Time is causal density, not clock ticks",
    condition := fun _ d _ => decide (d > 15/100) },
  { name := "Memory Persistence Law",
    description := "Memory enables pattern formation and cognition",
    condition := fun _ _ m => decide (m > 2/100) },
  { name := "Structural Differentiation",
    description := "Hubs, bridges, and clusters enable efficient cognition",
    condition := fun s _ _ => decide (s > 4/10) } ]

/-- `MetaLawSynthesis.classify_universality_class`: the ordered if/elif
chain. -/
def classify_universality_class (S D M : ℚ) : UniversalityClass :=
  if S > 5/10 ∧ D < 5/10 then .GRAMMAR_STRUCTURAL
  else if S > 6/10 ∧ M < 5/100 then .FAST_PROPAGATION
  else if M > 8/100 then .SLOW_MEMORY
  else if S < 3/10 ∧ D > 5/10 then .DENSE_DYNAMICAL
  else .GRAMMAR_STRUCTURAL

/-- `MetaLawSynthesis.compute_capacity`: S × D × M. -/
def compute_capacity (S D M : ℚ) : ℚ := S * D * M

/-- `MetaLawSynthesis.get_active_laws`: walks the registry in order,
appending the name of every law whose condition holds. -/
def get_active_laws (S D M : ℚ) : List String :=
  LAWS.foldl (fun active law =>
    if law.condition S D M then active ++ [law.name] else active) []

/-- `CognitiveState`: the immutable prediction record. -/
structure CognitiveState where
  S : ℚ
  D : ℚ
  M : ℚ
  capacity : ℚ := 0
  phi : ℕ := 0
  universality_class : String := ""
  threshold : ℚ := 0
  active_laws : List String := []

/-- `MetaLawSynthesis.predict`, after parameter extraction: builds the
prediction record from the scalar triple (S, D, M). -/
def predict (S D M : ℚ) : CognitiveState :=
  let uni_class := classify_universality_class S D M
  let threshold := CLASS_THRESHOLDS uni_class
  let capacity := compute_capacity S D M
  let phi : ℕ := if capacity ≥ threshold then 1 else 0
  let active_laws := get_active_laws S D M
  { S := S, D := D, M := M, capacity := capacity, phi := phi,
    universality_class := uni_class.value, threshold := threshold,
    active_laws := active_laws }

/-- Modelled from the spec: the classification chain as an ordered rule
list, whose first matching rule decides the class (default
GRAMMAR_STRUCTURAL when none matches). -/
def classifyChain : List ((ℚ → ℚ → ℚ → Bool) × UniversalityClass) := [
  (fun S D _ => decide (S > 5/10 ∧ D < 5/10), .GRAMMAR_STRUCTURAL),
  (fun S _ M => decide (S > 6/10 ∧ M < 5/100), .FAST_PROPAGATION),
  (fun _ _ M => decide (M > 8/100), .SLOW_MEMORY),
  (fun S D _ => decide (S < 3/10 ∧ D > 5/10), .DENSE_DYNAMICAL) ]

/-- Modelled from the spec: the class of the first matching rule of the
ordered chain. -/
def firstMatchingClass (S D M : ℚ) : UniversalityClass :=
  match classifyChain.find? (fun r => r.1 S D M) with
  | some r => r.2
  | none => .GRAMMAR_STRUCTURAL

lemma get_active_laws_foldl (L : List Law) (init : List String) (S D M : ℚ) :
    L.foldl (fun active law =>
        if law.condition S D M then active ++ [law.name] else active) init
      = init ++ (L.filter (fun l => l.condition S D M)).map Law.name := by
  induction L generalizing init with
  | nil => simp
  | cons l L ih =>
    by_cases h : l.condition S D M <;>
      simp [List.foldl_cons, List.filter_cons, h, ih]

lemma mem_get_active_laws (S D M : ℚ) (n : String) :
    n ∈ get_active_laws S D M
      ↔ ∃ l, l ∈ LAWS ∧ l.name = n ∧ l.condition S D M = true := by
  rw [get_active_laws, get_active_laws_foldl]
  simp only [List.nil_append, List.mem_map, List.mem_filter]
  constructor
  · rintro ⟨l, ⟨hl, hc⟩, hn⟩
    exact ⟨l, hl, hn, hc⟩
  · rintro ⟨l, hl, hn, hc⟩
    exact ⟨l, ⟨hl, hc⟩, hn⟩

/-- C1: `predict` yields a record whose capacity is S*D*M, whose phi is 1
iff capacity ≥ threshold, and whose threshold is the fixed per-class value
(GRAMMAR_STRUCTURAL=0.003, FAST_PROPAGATION=0.005, SLOW_MEMORY=0.007,
DENSE_DYNAMICAL=0.010) of the record's universality class. -/
theorem predict_record_spec (S D M : ℚ) :
    (predict S D M).capacity = S * D * M ∧
    ((predict S D M).phi = 1 ↔ (predict S D M).capacity ≥ (predict S D M).threshold) ∧
    (predict S D M).universality_class = (classify_universality_class S D M).value ∧
    (predict S D M).threshold = CLASS_THRESHOLDS (classify_universality_class S D M) ∧
    CLASS_THRESHOLDS .GRAMMAR_STRUCTURAL = 3/1000 ∧
    CLASS_THRESHOLDS .FAST_PROPAGATION = 5/1000 ∧
    CLASS_THRESHOLDS .SLOW_MEMORY = 7/1000 ∧
    CLASS_THRESHOLDS .DENSE_DYNAMICAL = 10/1000 := by
  refine ⟨rfl, ?_, rfl, rfl, rfl, rfl, rfl, rfl⟩
  by_cases h : compute_capacity S D M ≥ CLASS_THRESHOLDS (classify_universality_class S D M) <;>
    simp [predict, h, compute_capacity]

/-- C2: `classify_universality_class` returns the class of the first
matching rule of the ordered chain (S>0.5 ∧ D<0.5 ↦ GRAMMAR_STRUCTURAL;
S>0.6 ∧ M<0.05 ↦ FAST_PROPAGATION; M>0.08 ↦ SLOW_MEMORY;
S<0.3 ∧ D>0.5 ↦ DENSE_DYNAMICAL; default GRAMMAR_STRUCTURAL); in
particular (0.8,0.4,0.03) maps to grammar_structural and (0.2,0.8,0.03)
to dense_dynamical. -/
theorem classify_first_match (S D M : ℚ) :
    classify_universality_class S D M = firstMatchingClass S D M ∧
    (classify_universality_class (8/10) (4/10) (3/100)).value = "grammar_structural" ∧
    (classify_universality_class (2/10) (8/10) (3/100)).value = "dense_dynamical" := by
  refine ⟨?_,
    by norm_num [classify_universality_class, UniversalityClass.value],
    by norm_num [classify_universality_class, UniversalityClass.value]⟩
  unfold classify_universality_class firstMatchingClass classifyChain
  split_ifs with h1 h2 h3 h4
  · simp only [List.find?, decide_eq_true h1]
  · simp only [List.find?, decide_eq_false h1, decide_eq_true h2]
  · simp only [List.find?, decide_eq_false h1, decide_eq_false h2, decide_eq_true h3]
  · simp only [List.find?, decide_eq_false h1, decide_eq_false h2, decide_eq_false h3,
      decide_eq_true h4]
  · simp only [List.find?, decide_eq_false h1, decide_eq_false h2, decide_eq_false h3,
      decide_eq_false h4]

/-- C8: `get_active_laws` evaluates the five fixed law predicates
independently and returns the names of all matching laws in registration
order; for (S,D,M) = (0.6,0.5,0.1) the result contains
"Structural Differentiation" and "Causal Time". -/
theorem active_laws_spec (S D M : ℚ) :
    get_active_laws S D M = (LAWS.filter (fun l => l.condition S D M)).map Law.name ∧
    ("Structural Morality" ∈ get_active_laws S D M ↔ S > 3/10 ∧ D > 2/10) ∧
    ("Observation Independence" ∈ get_active_laws S D M ↔ S * D * M > 1/1000) ∧
    ("Causal Time" ∈ get_active_laws S D M ↔ D > 15/100) ∧
    ("Memory Persistence Law" ∈ get_active_laws S D M ↔ M > 2/100) ∧
    ("Structural Differentiation" ∈ get_active_laws S D M ↔ S > 4/10) ∧
    "Structural Differentiation" ∈ get_active_laws (6/10) (5/10) (1/10) ∧
    "Causal Time" ∈ get_active_laws (6/10) (5/10) (1/10) := by
  have hmem : ∀ n S D M, n ∈ get_active_laws S D M
      ↔ ∃ l, l ∈ LAWS ∧ l.name = n ∧ l.condition S D M = true :=
    fun n S D M => mem_get_active_laws S D M n
  refine ⟨?_, ?_, ?_, ?_, ?_, ?_, ?_, ?_⟩
  · rw [get_active_laws, get_active_laws_foldl, List.nil_append]
  all_goals rw [hmem]; simp [LAWS]
  · norm_num
  · norm_num

/-! ## Causality engine (src/core_interface.py, `CausalityEngine`) -/

/-- `CausalityEngine`: append-only event log (src, dst, strength) plus the
cached causal density. -/
structure CausalityEngine where
  events : List (String × String × ℚ)
  current_density : ℚ

/-- A fresh engine: the dataclass defaults (no events, density 0). -/
def CausalityEngine.init : CausalityEngine := { events := [], current_density := 0 }

/-- `CausalityEngine._update_density`: recompute the density from the last
100 events (`events[-100:]` is `drop (length - 100)`). -/
def update_density (e : CausalityEngine) : CausalityEngine :=
  if e.events.length = 0 then { e with current_density := 0 }
  else
    let recent := e.events.drop (e.events.length - 100)
    let total_strength : ℚ := (recent.map (fun ev => ev.2.2)).sum
    { e with current_density := min 1 (total_strength / ((max recent.length 1 : ℕ) : ℚ)) }

/-- `CausalityEngine.register_event`: append the event, then recompute the
density. -/
def register_event (e : CausalityEngine) (src dst : String) (strength : ℚ) :
    CausalityEngine :=
  update_density { e with events := e.events ++ [(src, dst, strength)] }

/-- A whole sequence of `register_event` calls. -/
def register_events (e : CausalityEngine) (evs : List (String × String × ℚ)) :
    CausalityEngine :=
  evs.foldl (fun acc ev => register_event acc ev.1 ev.2.1 ev.2.2) e

/-- The comprehension `[dst for src, dst, _ in self.events if src == current]`. -/
def nextNodes (events : List (String × String × ℚ)) (current : String) : List String :=
  (events.filter (fun ev => ev.1 == current)).map (fun ev => ev.2.1)

/-- The loop body of `get_causal_chain`: up to `fuel` further hops, each to
`next_nodes[-1]`, stopping as soon as `next_nodes` is empty. -/
def chainLoop (events : List (String × String × ℚ)) : String → ℕ → List String
  | _, 0 => []
  | current, fuel + 1 =>
    match (nextNodes events current).getLast? with
    | none => []
    | some nxt => nxt :: chainLoop events nxt fuel

/-- `CausalityEngine.get_causal_chain` (Python default `max_depth=5`). -/
def get_causal_chain (e : CausalityEngine) (start : String) (max_depth : ℕ) :
    List String :=
  start :: chainLoop e.events start max_depth

lemma register_event_events (e : CausalityEngine) (src dst : String) (strength : ℚ) :
    (register_event e src dst strength).events = e.events ++ [(src, dst, strength)] := by
  rw [register_event, update_density]
  split <;> rfl

lemma register_events_events (evs : List (String × String × ℚ)) :
    ∀ e : CausalityEngine, (register_events e evs).events = e.events ++ evs := by
  induction evs with
  | nil => intro e; simp [register_events]
  | cons ev evs ih =>
    intro e
    show (register_events (register_event e ev.1 ev.2.1 ev.2.2) evs).events = _
    rw [ih, register_event_events]
    simp

lemma register_event_density_le_one (e : CausalityEngine) (src dst : String)
    (strength : ℚ) : (register_event e src dst strength).current_density ≤ 1 := by
  rw [register_event, update_density]
  split
  · norm_num
  · exact min_le_left _ _

lemma register_event_density_nonneg (e : CausalityEngine) (src dst : String)
    (strength : ℚ) (h : ∀ ev ∈ e.events ++ [(src, dst, strength)], 0 ≤ ev.2.2) :
    0 ≤ (register_event e src dst strength).current_density := by
  rw [register_event, update_density]
  split
  · norm_num
  · refine le_min (by norm_num) (div_nonneg ?_ (Nat.cast_nonneg _))
    refine List.sum_nonneg ?_
    intro x hx
    rcases List.mem_map.mp hx with ⟨ev, hev, rfl⟩
    exact h ev ((List.drop_sublist _ _).subset hev)

/-- C5: after every `register_event` call the density equals
min(1, T/n) where n = min(#events, 100) and T sums the strengths of the n
most recent events; a fresh engine has density 0. -/
theorem register_event_density_spec (e : CausalityEngine) (src dst : String)
    (strength : ℚ) :
    (register_event e src dst strength).events = e.events ++ [(src, dst, strength)] ∧
    (register_event e src dst strength).current_density
      = min 1 ((((e.events ++ [(src, dst, strength)]).drop
            (e.events.length + 1 - min (e.events.length + 1) 100)).map
            (fun ev => ev.2.2)).sum / ((min (e.events.length + 1) 100 : ℕ) : ℚ)) ∧
    CausalityEngine.init.current_density = 0 := by
  refine ⟨register_event_events e src dst strength, ?_, rfl⟩
  have hlen : (e.events ++ [(src, dst, strength)]).length = e.events.length + 1 := by
    simp
  have hne : ¬((e.events ++ [(src, dst, strength)]).length = 0) := by
    rw [hlen]; omega
  rw [register_event, update_density, if_neg hne]
  show min 1 _ = _
  rw [hlen]
  rw [show e.events.length + 1 - min (e.events.length + 1) 100
      = e.events.length + 1 - 100 from by omega]
  rw [List.length_drop, hlen]
  rw [show max (e.events.length + 1 - (e.events.length + 1 - 100)) 1
      = min (e.events.length + 1) 100 from by omega]

/-- C10: starting from a fresh engine, after any sequence of
`register_event` calls the density is at most 1; when every registered
strength is nonnegative it is also nonnegative, so it lies in [0, 1]. -/
theorem density_in_unit_interval (evs : List (String × String × ℚ)) :
    (register_events CausalityEngine.init evs).current_density ≤ 1 ∧
    ((∀ ev ∈ evs, 0 ≤ ev.2.2) →
      0 ≤ (register_events CausalityEngine.init evs).current_density) := by
  rcases List.eq_nil_or_concat evs with rfl | ⟨evs', ev, rfl⟩
  · exact ⟨by norm_num [register_events, CausalityEngine.init],
      fun _ => by norm_num [register_events, CausalityEngine.init]⟩
  · simp only [List.concat_eq_append]
    have hsplit : register_events CausalityEngine.init (evs' ++ [ev])
        = register_event (register_events CausalityEngine.init evs') ev.1 ev.2.1 ev.2.2 := by
      rw [register_events, List.foldl_append]
      rfl
    rw [hsplit]
    refine ⟨register_event_density_le_one _ _ _ _, fun h => ?_⟩
    refine register_event_density_nonneg _ _ _ _ ?_
    intro x hx
    rw [register_events_events, CausalityEngine.init] at hx
    exact h x (by simpa using hx)

lemma chainLoop_length (events : List (String × String × ℚ)) :
    ∀ (fuel : ℕ) (current : String), (chainLoop events current fuel).length ≤ fuel := by
  intro fuel
  induction fuel with
  | zero => intro current; simp [chainLoop]
  | succ k ih =>
    intro current
    rw [chainLoop]
    cases hl : (nextNodes events current).getLast? with
    | none => simp
    | some nxt =>
      simpa [Nat.succ_le_succ_iff] using ih nxt

lemma chainLoop_eq_nil_iff (events : List (String × String × ℚ)) (current : String)
    (fuel : ℕ) :
    chainLoop events current fuel = []
      ↔ fuel = 0 ∨ (nextNodes events current).getLast? = none := by
  cases fuel with
  | zero => simp [chainLoop]
  | succ k =>
    rw [chainLoop]
    cases hl : (nextNodes events current).getLast? <;> simp [hl]

lemma chainLoop_get (events : List (String × String × ℚ)) :
    ∀ (fuel : ℕ) (current : String) (i : ℕ),
      (current :: chainLoop events current fuel)[i + 1]?
        = if i + 1 ≤ fuel
          then ((current :: chainLoop events current fuel)[i]?).bind
            (fun x => (nextNodes events x).getLast?)
          else none := by
  intro fuel
  induction fuel with
  | zero =>
    intro current i
    simp [chainLoop]
  | succ k ih =>
    intro current i
    rw [chainLoop]
    cases hl : (nextNodes events current).getLast? with
    | none =>
      cases i with
      | zero => simp [hl]
      | succ j => simp
    | some nxt =>
      cases i with
      | zero => simp [hl]
      | succ j =>
        have ihj := ih nxt j
        simp only [List.getElem?_cons_succ] at ihj ⊢
        rw [ihj]
        by_cases hj : j + 1 ≤ k
        · rw [if_pos hj, if_pos (by omega)]
        · rw [if_neg hj, if_neg (by omega)]

/-- C7: `get_causal_chain` starts at `start`; it makes at most `max_depth`
hops; the result is the singleton [start] exactly when the depth is 0 or
`start` has no outgoing event; and each chain element is followed by the
destination of the last-registered event out of it (while depth remains),
with the walk ending when no such event exists. -/
theorem get_causal_chain_spec (e : CausalityEngine) (start : String) (max_depth : ℕ) :
    (get_causal_chain e start max_depth).head? = some start ∧
    (get_causal_chain e start max_depth).length ≤ max_depth + 1 ∧
    (get_causal_chain e start max_depth = [start]
      ↔ max_depth = 0 ∨ (nextNodes e.events start).getLast? = none) ∧
    (∀ i : ℕ, (get_causal_chain e start max_depth)[i + 1]?
        = if i + 1 ≤ max_depth
          then ((get_causal_chain e start max_depth)[i]?).bind
            (fun x => (nextNodes e.events x).getLast?)
          else none) := by
  refine ⟨rfl, ?_, ?_, ?_⟩
  · simpa [get_causal_chain, Nat.succ_le_succ_iff] using
      chainLoop_length e.events max_depth start
  · rw [get_causal_chain]
    rw [show (start :: chainLoop e.events start max_depth = [start])
        ↔ (chainLoop e.events start max_depth = []) from by simp]
    exact chainLoop_eq_nil_iff e.events start max_depth
  · exact chainLoop_get e.events max_depth start

/-! ## Memory module (src/core_interface.py, `MemoryModule`) -/

/-- `MemoryModule`: decay configuration, trace store and proto-language. -/
structure MemoryModule where
  persistence : ℚ
  memories : List (String × ℚ)
  proto_language : List String

/-- `MemoryModule.decay`: multiply every stored strength by
1 - (1-persistence)*0.1, then delete every key whose resulting strength is
below 0.01. -/
def MemoryModule.decay (m : MemoryModule) : MemoryModule :=
  let decay_rate := 1 - m.persistence
  let scaled := m.memories.map (fun p => (p.1, p.2 * (1 - decay_rate * (1/10))))
  { m with memories := scaled.filter (fun p => !decide (p.2 < 1/100)) }

/-- C6: every entry surviving `decay` is an old entry scaled by
1-(1-persistence)*0.1 and is at least 0.01; every scaled entry at least
0.01 survives; an empty store stays empty (so repeated decay is idempotent
once everything is purged). -/
theorem memory_decay_spec (m : MemoryModule) :
    (∀ p ∈ m.decay.memories, ∃ q ∈ m.memories,
        p.1 = q.1 ∧ p.2 = q.2 * (1 - (1 - m.persistence) * (1/10))) ∧
    (∀ p ∈ m.decay.memories, ¬ p.2 < 1/100) ∧
    (∀ q ∈ m.memories, ¬ q.2 * (1 - (1 - m.persistence) * (1/10)) < 1/100 →
        (q.1, q.2 * (1 - (1 - m.persistence) * (1/10))) ∈ m.decay.memories) ∧
    (m.memories = [] → m.decay.memories = []) := by
  refine ⟨?_, ?_, ?_, ?_⟩
  · intro p hp
    rw [MemoryModule.decay] at hp
    obtain ⟨hp, -⟩ := List.mem_filter.mp hp
    obtain ⟨q, hq, rfl⟩ := List.mem_map.mp hp
    exact ⟨q, hq, rfl, rfl⟩
  · intro p hp
    rw [MemoryModule.decay] at hp
    obtain ⟨-, hcond⟩ := List.mem_filter.mp hp
    simpa using hcond
  · intro q hq hge
    rw [MemoryModule.decay]
    refine List.mem_filter.mpr ⟨List.mem_map.mpr ⟨q, hq, rfl⟩, ?_⟩
    simpa using hge
  · intro h
    rw [MemoryModule.decay, h]
    rfl

/-! ## Cognitive network (src/core_interface.py, `CognitiveNetwork`) -/

/-- Edge payload: `{"weight": ..., "causal_strength": ...}`. The scalar
type is a parameter (the Python floats are read as ℝ; concrete sample
networks use the same structure). -/
structure EdgeProps (α : Type) where
  weight : α
  causal_strength : α

/-- `CognitiveNetwork`: node dict (id ↦ activation) and edge dict
((src, dst) ↦ props), both in insertion order. -/
structure CognitiveNetwork (α : Type) where
  nodes : List (String × α)
  edges : List ((String × String) × EdgeProps α)

/-- The edge keys (src, dst), in insertion order. -/
def CognitiveNetwork.edgeKeys {α : Type} (net : CognitiveNetwork α) :
    List (String × String) :=
  net.edges.map Prod.fst

/-- `degrees[node_id] += 1` on a `defaultdict(int)`: the entry is created at
the end on the first increment. -/
def bumpDegree : List (String × ℕ) → String → List (String × ℕ)
  | [], k => [(k, 1)]
  | p :: rest, k => if p.1 == k then (p.1, p.2 + 1) :: rest else p :: bumpDegree rest k

/-- The inner loop of `get_degree_distribution`: bump node n once for every
edge having n as src or as dst. -/
def degreeAccum (edges : List (String × String)) (d : List (String × ℕ)) (n : String) :
    List (String × ℕ) :=
  edges.foldl (fun acc e => if e.1 == n || e.2 == n then bumpDegree acc n else acc) d

/-- `CognitiveNetwork.get_degree_distribution`: the node × edge double loop,
then `list(degrees.values())`. -/
def CognitiveNetwork.get_degree_distribution {α : Type} (net : CognitiveNetwork α) :
    List ℕ :=
  (net.nodes.foldl (fun acc p => degreeAccum net.edgeKeys acc p.1) []).map Prod.snd

/-- How many edges are incident to n, each edge counted once (a self-loop
on n contributes one). -/
def incidentCount (edges : List (String × String)) (n : String) : ℕ :=
  edges.countP (fun e => e.1 == n || e.2 == n)

/-- Modelled from the spec (claim side of C3): incidence counted once per
matching endpoint position, so a self-loop on n contributes two. -/
def claimIncidentCount (edges : List (String × String)) (n : String) : ℕ :=
  edges.countP (fun e => e.1 == n) + edges.countP (fun e => e.2 == n)

lemma bumpDegree_of_not_mem (k : String) :
    ∀ d : List (String × ℕ), (∀ p ∈ d, p.1 ≠ k) → bumpDegree d k = d ++ [(k, 1)] := by
  intro d
  induction d with
  | nil => intro _; rfl
  | cons p rest ih =>
    intro h
    have hk : (p.1 == k) = false :=
      beq_eq_false_iff_ne.mpr (h p (List.mem_cons_self _ _))
    simp only [bumpDegree, hk, Bool.false_eq_true, if_false, List.cons_append,
      List.cons.injEq, true_and]
    exact ih fun q hq => h q (List.mem_cons_of_mem _ hq)

lemma bumpDegree_last (k : String) (c : ℕ) :
    ∀ d : List (String × ℕ), (∀ p ∈ d, p.1 ≠ k) →
      bumpDegree (d ++ [(k, c)]) k = d ++ [(k, c + 1)] := by
  intro d
  induction d with
  | nil => simp [bumpDegree]
  | cons p rest ih =>
    intro h
    have hk : (p.1 == k) = false :=
      beq_eq_false_iff_ne.mpr (h p (List.mem_cons_self _ _))
    simp only [List.cons_append, bumpDegree, hk, Bool.false_eq_true, if_false,
      List.cons.injEq, true_and]
    exact ih fun q hq => h q (List.mem_cons_of_mem _ hq)

lemma degreeAccum_last (k : String) :
    ∀ (edges : List (String × String)) (d : List (String × ℕ)) (c : ℕ),
      (∀ p ∈ d, p.1 ≠ k) →
      degreeAccum edges (d ++ [(k, c)]) k = d ++ [(k, c + incidentCount edges k)] := by
  intro edges
  induction edges with
  | nil => intro d c _; simp [degreeAccum, incidentCount]
  | cons e rest ih =>
    intro d c h
    show degreeAccum rest (if e.1 == k || e.2 == k then bumpDegree (d ++ [(k, c)]) k
        else d ++ [(k, c)]) k = _
    by_cases me : (e.1 == k || e.2 == k) = true
    · rw [if_pos me, bumpDegree_last k c d h, ih d (c + 1) h]
      have hcnt : incidentCount (e :: rest) k = incidentCount rest k + 1 := by
        simp [incidentCount, List.countP_cons, me]
      have harr : c + 1 + incidentCount rest k = c + (incidentCount rest k + 1) := by
        omega
      rw [hcnt, harr]
    · rw [if_neg me, ih d c h]
      have hcnt : incidentCount (e :: rest) k = incidentCount rest k := by
        simp [incidentCount, List.countP_cons, me]
      rw [hcnt]

lemma degreeAccum_of_not_mem (k : String) (edges : List (String × String))
    (d : List (String × ℕ)) (h : ∀ p ∈ d, p.1 ≠ k) :
    degreeAccum edges d k
      = if incidentCount edges k = 0 then d else d ++ [(k, incidentCount edges k)] := by
  induction edges with
  | nil => simp [degreeAccum, incidentCount]
  | cons e rest ih =>
    show degreeAccum rest (if e.1 == k || e.2 == k then bumpDegree d k else d) k = _
    by_cases me : (e.1 == k || e.2 == k) = true
    · rw [if_pos me, bumpDegree_of_not_mem k d h, degreeAccum_last k rest d 1 h]
      have : incidentCount (e :: rest) k = incidentCount rest k + 1 := by
        simp [incidentCount, List.countP_cons, me]
      rw [this, if_neg (by omega)]
      have harr : 1 + incidentCount rest k = incidentCount rest k + 1 := by omega
      rw [harr]
    · rw [if_neg me, ih]
      have : incidentCount (e :: rest) k = incidentCount rest k := by
        simp [incidentCount, List.countP_cons, me]
      rw [this]

lemma degree_fold_eq {α : Type} (edges : List (String × String)) :
    ∀ (ns : List (String × α)) (acc : List (String × ℕ)),
      (ns.map Prod.fst).Nodup →
      (∀ p ∈ acc, ∀ q ∈ ns, p.1 ≠ q.1) →
      ns.foldl (fun acc p => degreeAccum edges acc p.1) acc
        = acc ++ ns.filterMap (fun p =>
            if incidentCount edges p.1 = 0 then none
            else some (p.1, incidentCount edges p.1)) := by
  intro ns
  induction ns with
  | nil => intro acc _ _; simp
  | cons q rest ih =>
    intro acc hnd hdisj
    have hq : ∀ p ∈ acc, p.1 ≠ q.1 :=
      fun p hp => hdisj p hp q (List.mem_cons_self _ _)
    have hnd' : q.1 ∉ rest.map Prod.fst ∧ (rest.map Prod.fst).Nodup := by
      rw [List.map_cons, List.nodup_cons] at hnd
      exact hnd
    have hndr : (rest.map Prod.fst).Nodup := hnd'.2
    have hqrest : ∀ r ∈ rest, q.1 ≠ r.1 := by
      intro r hr heq
      exact hnd'.1 (List.mem_map.mpr ⟨r, hr, heq.symm⟩)
    show rest.foldl (fun acc p => degreeAccum edges acc p.1)
        (degreeAccum edges acc q.1) = _
    rw [degreeAccum_of_not_mem q.1 edges acc hq]
    by_cases hc : incidentCount edges q.1 = 0
    · rw [if_pos hc, ih acc hndr
        (fun p hp r hr => hdisj p hp r (List.mem_cons_of_mem _ hr))]
      simp [List.filterMap_cons, hc]
    · rw [if_neg hc, ih (acc ++ [(q.1, incidentCount edges q.1)]) hndr ?_]
      · simp [List.filterMap_cons, hc]
      · intro p hp r hr
        rcases List.mem_append.mp hp with hp | hp
        · exact hdisj p hp r (List.mem_cons_of_mem _ hr)
        · simp only [List.mem_singleton] at hp
          subst hp
          exact hqrest r hr

/-- C3 (amended): for a network whose node keys are distinct (as in a
Python dict), `get_degree_distribution` lists, in node insertion order, the
incident-edge count of every node with at least one incident edge, an edge
counted once when it matches as src or dst (a self-loop contributes one,
not two); zero-degree nodes are omitted. -/
theorem degree_distribution_spec (net : CognitiveNetwork ℝ)
    (hnd : (net.nodes.map Prod.fst).Nodup) :
    net.get_degree_distribution
      = net.nodes.filterMap (fun p =>
          if incidentCount net.edgeKeys p.1 = 0 then none
          else some (incidentCount net.edgeKeys p.1)) := by
  rw [CognitiveNetwork.get_degree_distribution,
    degree_fold_eq net.edgeKeys net.nodes [] hnd (by simp), List.nil_append,
    List.map_filterMap]
  congr 1
  funext p
  by_cases hc : incidentCount net.edgeKeys p.1 = 0 <;> simp [hc]

/-- Witness for the amended C3 theorem: a three-node network with an edge
a→b and a self-loop on b. -/
theorem degree_distribution_spec_witness :
    (((⟨[("a", 0), ("b", 0), ("c", 0)],
        [(("a", "b"), ⟨1, 1⟩), (("b", "b"), ⟨1, 1⟩)]⟩ :
          CognitiveNetwork ℝ)).nodes.map Prod.fst).Nodup ∧
    (⟨[("a", 0), ("b", 0), ("c", 0)],
        [(("a", "b"), ⟨1, 1⟩), (("b", "b"), ⟨1, 1⟩)]⟩ :
          CognitiveNetwork ℝ).get_degree_distribution
      = (⟨[("a", 0), ("b", 0), ("c", 0)],
          [(("a", "b"), ⟨1, 1⟩), (("b", "b"), ⟨1, 1⟩)]⟩ :
            CognitiveNetwork ℝ).nodes.filterMap (fun p =>
          if incidentCount (⟨[("a", 0), ("b", 0), ("c", 0)],
              [(("a", "b"), ⟨1, 1⟩), (("b", "b"), ⟨1, 1⟩)]⟩ :
                CognitiveNetwork ℝ).edgeKeys p.1 = 0 then none
          else some (incidentCount (⟨[("a", 0), ("b", 0), ("c", 0)],
              [(("a", "b"), ⟨1, 1⟩), (("b", "b"), ⟨1, 1⟩)]⟩ :
                CognitiveNetwork ℝ).edgeKeys p.1)) :=
  ⟨by decide, degree_distribution_spec
    (⟨[("a", 0), ("b", 0), ("c", 0)],
      [(("a", "b"), ⟨1, 1⟩), (("b", "b"), ⟨1, 1⟩)]⟩ : CognitiveNetwork ℝ) (by decide)⟩

/-- C3 counterexample: the claim counts a self-loop once per endpoint
position (so the sole node of a one-node one-self-loop network should
report degree 2), but the code bumps the counter once per edge and reports
[1]. -/
theorem degree_distribution_selfloop_cex :
    (⟨[("a", 0)], [(("a", "a"), ⟨1, 1⟩)]⟩ :
        CognitiveNetwork ℝ).get_degree_distribution = [1] ∧
    claimIncidentCount (⟨[("a", 0)], [(("a", "a"), ⟨1, 1⟩)]⟩ :
        CognitiveNetwork ℝ).edgeKeys "a" = 2 ∧
    (⟨[("a", 0)], [(("a", "a"), ⟨1, 1⟩)]⟩ :
        CognitiveNetwork ℝ).get_degree_distribution
      ≠ [claimIncidentCount (⟨[("a", 0)], [(("a", "a"), ⟨1, 1⟩)]⟩ :
          CognitiveNetwork ℝ).edgeKeys "a"] :=
  ⟨by decide, by decide, by decide⟩

/-! ## Activation propagation (src/core_interface.py, `propagate`)

The update rule `0.9*current + 0.1*tanh(incoming)` is embedded generically
in the scalar field and in the squashing function `f`; the claims
instantiate both at ℝ and `Real.tanh`. -/

/-- `node_id in self.nodes`. -/
def containsNode {α : Type} (nodes : List (String × α)) (node_id : String) : Bool :=
  nodes.any (fun p => p.1 == node_id)

/-- `self.nodes[node_id]["activation"]` (the lookups the code performs are
all guarded, so the default 0 is never exercised). -/
def getActivation {α : Type} [Field α] (nodes : List (String × α))
    (node_id : String) : α :=
  match nodes.find? (fun p => p.1 == node_id) with
  | some p => p.2
  | none => 0

/-- The `incoming` accumulation: over all edges whose dst is this node and
whose src exists in `nodes`, add `source_activation * edge_weight`. -/
def incoming {α : Type} [Field α] (net : CognitiveNetwork α) (node_id : String) : α :=
  net.edges.foldl (fun acc e =>
    if e.1.2 == node_id && containsNode net.nodes e.1.1 then
      acc + getActivation net.nodes e.1.1 * e.2.weight
    else acc) 0

/-- The `new_activations` dict: one entry per current node, computed from
the pre-step state. -/
def newActivations {α : Type} [Field α] (f : α → α) (net : CognitiveNetwork α) :
    List (String × α) :=
  net.nodes.map (fun p => (p.1, (9/10) * p.2 + (1/10) * f (incoming net p.1)))

/-- `self.nodes[node_id]["activation"] = activation` (update of an existing
key). -/
def setActivation {α : Type} (nodes : List (String × α)) (node_id : String)
    (a : α) : List (String × α) :=
  nodes.map (fun p => if p.1 == node_id then (p.1, a) else p)

/-- One step of `propagate`: compute all new activations from the pre-step
snapshot, then write them back. -/
def propagateStep {α : Type} [Field α] (f : α → α) (net : CognitiveNetwork α) :
    CognitiveNetwork α :=
  { nodes := (newActivations f net).foldl (fun ns u => setActivation ns u.1 u.2) net.nodes,
    edges := net.edges }

/-- `propagate(steps)`: iterate the step. -/
def propagate {α : Type} [Field α] (f : α → α) (net : CognitiveNetwork α) :
    ℕ → CognitiveNetwork α
  | 0 => net
  | steps + 1 => propagate f (propagateStep f net) steps

/-- The effect of the write-back fold on one entry. -/
def applyUpds {α : Type} (us : List (String × α)) (p : String × α) : String × α :=
  us.foldl (fun q u => if q.1 == u.1 then (q.1, u.2) else q) p

lemma setActivation_foldl_eq_map {α : Type} :
    ∀ (us : List (String × α)) (ns : List (String × α)),
      us.foldl (fun ns u => setActivation ns u.1 u.2) ns = ns.map (applyUpds us) := by
  intro us
  induction us with
  | nil =>
    intro ns
    show ns = ns.map (fun p => p)
    rw [List.map_id']
  | cons u us ih =>
    intro ns
    show us.foldl (fun ns u => setActivation ns u.1 u.2) (setActivation ns u.1 u.2) = _
    rw [ih, setActivation, List.map_map]
    rfl

lemma applyUpds_fst {α : Type} :
    ∀ (us : List (String × α)) (p : String × α), (applyUpds us p).1 = p.1 := by
  intro us
  induction us with
  | nil => intro p; rfl
  | cons u us ih =>
    intro p
    show (applyUpds us (if p.1 == u.1 then (p.1, u.2) else p)).1 = p.1
    by_cases hb : (p.1 == u.1) = true
    · rw [if_pos hb, ih]
    · rw [if_neg hb, ih]

lemma applyUpds_of_not_mem {α : Type} :
    ∀ (us : List (String × α)) (p : String × α),
      (∀ u ∈ us, u.1 ≠ p.1) → applyUpds us p = p := by
  intro us
  induction us with
  | nil => intro p _; rfl
  | cons u us ih =>
    intro p h
    show applyUpds us (if p.1 == u.1 then (p.1, u.2) else p) = p
    have hb : (p.1 == u.1) = false :=
      beq_eq_false_iff_ne.mpr fun he => h u (List.mem_cons_self _ _) he.symm
    rw [hb]
    show applyUpds us p = p
    exact ih p fun v hv => h v (List.mem_cons_of_mem _ hv)

lemma applyUpds_map_self {α : Type} (fm : (String × α) → (String × α))
    (hk : ∀ q, (fm q).1 = q.1) :
    ∀ ns : List (String × α), (ns.map Prod.fst).Nodup →
      ∀ p ∈ ns, applyUpds (ns.map fm) p = fm p := by
  intro ns
  induction ns with
  | nil => intro _ p hp; cases hp
  | cons q rest ih =>
    intro hnd p hp
    have hnd' : q.1 ∉ rest.map Prod.fst ∧ (rest.map Prod.fst).Nodup := by
      rw [List.map_cons, List.nodup_cons] at hnd
      exact hnd
    rcases List.mem_cons.mp hp with rfl | hp
    · show applyUpds (rest.map fm) (if p.1 == (fm p).1 then (p.1, (fm p).2) else p) = fm p
      rw [hk p, if_pos (by simp)]
      have hfmp : (p.1, (fm p).2) = fm p := by
        refine Prod.ext ?_ rfl
        rw [hk p]
      rw [hfmp]
      refine applyUpds_of_not_mem _ _ ?_
      intro u hu
      rcases List.mem_map.mp hu with ⟨r, hr, rfl⟩
      rw [hk r, hk p]
      intro he
      exact hnd'.1 (List.mem_map.mpr ⟨r, hr, he⟩)
    · show applyUpds (rest.map fm) (if p.1 == (fm q).1 then (p.1, (fm q).2) else p) = fm p
      have hb : (p.1 == (fm q).1) = false := by
        rw [hk q]
        refine beq_eq_false_iff_ne.mpr fun he => ?_
        exact hnd'.1 (List.mem_map.mpr ⟨p, hp, he⟩)
      rw [hb]
      show applyUpds (rest.map fm) p = fm p
      exact ih hnd'.2 p hp

lemma getActivation_eq_of_mem {α : Type} [Field α] :
    ∀ (ns : List (String × α)), (ns.map Prod.fst).Nodup →
      ∀ p0 ∈ ns, ∀ n, p0.1 = n → getActivation ns n = p0.2 := by
  intro ns
  induction ns with
  | nil => intro _ p0 hp0; cases hp0
  | cons q rest ih =>
    intro hnd p0 hp0 n hn
    have hnd' : q.1 ∉ rest.map Prod.fst ∧ (rest.map Prod.fst).Nodup := by
      rw [List.map_cons, List.nodup_cons] at hnd
      exact hnd
    rcases List.mem_cons.mp hp0 with rfl | hp0
    · rw [getActivation, List.find?_cons_of_pos _ (by simp [hn])]
    · have hqn : (q.1 == n) = false := by
        refine beq_eq_false_iff_ne.mpr fun he => ?_
        exact hnd'.1 (List.mem_map.mpr ⟨p0, hp0, by rw [hn, he]⟩)
      rw [getActivation, List.find?_cons_of_neg _ (by simp [hqn])]
      exact ih hnd'.2 p0 hp0 n hn

lemma propagateStep_nodes {α : Type} [Field α] (f : α → α)
    (net : CognitiveNetwork α) :
    (propagateStep f net).nodes = net.nodes.map (applyUpds (newActivations f net)) := by
  rw [propagateStep, setActivation_foldl_eq_map]

lemma propagateStep_getActivation {α : Type} [Field α] (f : α → α)
    (net : CognitiveNetwork α) (hnd : (net.nodes.map Prod.fst).Nodup)
    (n : String) (hn : containsNode net.nodes n = true) :
    getActivation (propagateStep f net).nodes n
      = (9/10) * getActivation net.nodes n + (1/10) * f (incoming net n) := by
  obtain ⟨p0, hp0, hp0n⟩ : ∃ p0 ∈ net.nodes, (p0.1 == n) = true := by
    simpa [containsNode, List.any_eq_true] using hn
  have hp0n' : p0.1 = n := by simpa using hp0n
  have hupd := applyUpds_map_self
    (fun p => (p.1, (9/10) * p.2 + (1/10) * f (incoming net p.1)))
    (fun q => rfl) net.nodes hnd p0 hp0
  have hkeys : ((net.nodes.map (applyUpds (newActivations f net))).map Prod.fst)
      = net.nodes.map Prod.fst := by
    rw [List.map_map]
    refine List.map_congr_left fun p _ => ?_
    exact applyUpds_fst _ p
  rw [propagateStep_nodes]
  rw [getActivation_eq_of_mem (net.nodes.map (applyUpds (newActivations f net)))
    (by rw [hkeys]; exact hnd)
    (applyUpds (newActivations f net) p0)
    (List.mem_map.mpr ⟨p0, hp0, rfl⟩) n (by rw [applyUpds_fst]; exact hp0n'),
    getActivation_eq_of_mem net.nodes hnd p0 hp0 n hp0n']
  rw [show applyUpds (newActivations f net) p0
      = (p0.1, (9/10) * p0.2 + (1/10) * f (incoming net p0.1)) from hupd]
  rw [hp0n']

lemma propagate_edges {α : Type} [Field α] (f : α → α) :
    ∀ (steps : ℕ) (net : CognitiveNetwork α),
      (propagate f net steps).edges = net.edges := by
  intro steps
  induction steps with
  | zero => intro net; rfl
  | succ k ih =>
    intro net
    show (propagate f (propagateStep f net) k).edges = _
    rw [ih]
    rfl

/-- C4: in each step of `propagate` (instantiated at tanh), every node's
new activation is 0.9*current + 0.1*tanh(incoming), where incoming sums
source_activation * edge_weight over edges into the node whose source
exists — all read from the single pre-step snapshot — and the edge map is
unchanged by any number of steps. -/
theorem propagate_step_formula (net : CognitiveNetwork ℝ)
    (hnd : (net.nodes.map Prod.fst).Nodup) (n : String)
    (hn : containsNode net.nodes n = true) :
    getActivation (propagateStep Real.tanh net).nodes n
      = (9/10) * getActivation net.nodes n + (1/10) * Real.tanh (incoming net n) ∧
    (propagateStep Real.tanh net).edges = net.edges ∧
    ∀ steps : ℕ, (propagate Real.tanh net steps).edges = net.edges :=
  ⟨propagateStep_getActivation Real.tanh net hnd n hn, rfl,
    fun steps => propagate_edges Real.tanh steps net⟩

/-- Witness for C4: the two-node network a→b, read at node b. -/
theorem propagate_step_formula_witness :
    (((⟨[("a", 0), ("b", 1)], [(("a", "b"), ⟨1, 1⟩)]⟩ :
        CognitiveNetwork ℝ)).nodes.map Prod.fst).Nodup ∧
    containsNode (⟨[("a", 0), ("b", 1)], [(("a", "b"), ⟨1, 1⟩)]⟩ :
        CognitiveNetwork ℝ).nodes "b" = true ∧
    (getActivation (propagateStep Real.tanh
        (⟨[("a", 0), ("b", 1)], [(("a", "b"), ⟨1, 1⟩)]⟩ :
          CognitiveNetwork ℝ)).nodes "b"
      = (9/10) * getActivation (⟨[("a", 0), ("b", 1)],
            [(("a", "b"), ⟨1, 1⟩)]⟩ : CognitiveNetwork ℝ).nodes "b"
        + (1/10) * Real.tanh (incoming (⟨[("a", 0), ("b", 1)],
            [(("a", "b"), ⟨1, 1⟩)]⟩ : CognitiveNetwork ℝ) "b") ∧
      (propagateStep Real.tanh (⟨[("a", 0), ("b", 1)],
          [(("a", "b"), ⟨1, 1⟩)]⟩ : CognitiveNetwork ℝ)).edges
        = (⟨[("a", 0), ("b", 1)], [(("a", "b"), ⟨1, 1⟩)]⟩ :
            CognitiveNetwork ℝ).edges ∧
      ∀ steps : ℕ, (propagate Real.tanh (⟨[("a", 0), ("b", 1)],
          [(("a", "b"), ⟨1, 1⟩)]⟩ : CognitiveNetwork ℝ) steps).edges
        = (⟨[("a", 0), ("b", 1)], [(("a", "b"), ⟨1, 1⟩)]⟩ :
            CognitiveNetwork ℝ).edges) :=
  ⟨by decide, by decide,
    propagate_step_formula (⟨[("a", 0), ("b", 1)], [(("a", "b"), ⟨1, 1⟩)]⟩ :
      CognitiveNetwork ℝ) (by decide) "b" (by decide)⟩

lemma tanh_mem_Icc (x : ℝ) : -1 ≤ Real.tanh x ∧ Real.tanh x ≤ 1 := by
  have hc := Real.cosh_pos x
  rw [Real.tanh_eq_sinh_div_cosh]
  constructor
  · rw [le_div_iff₀ hc]
    have h2 := Real.sinh_lt_cosh (-x)
    rw [Real.sinh_neg, Real.cosh_neg] at h2
    linarith
  · rw [div_le_one hc]
    exact (Real.sinh_lt_cosh x).le

lemma applyUpds_value_cases {α : Type} :
    ∀ (us : List (String × α)) (p : String × α),
      applyUpds us p = p ∨ ∃ u ∈ us, (applyUpds us p).2 = u.2 := by
  intro us
  induction us with
  | nil => intro p; exact Or.inl rfl
  | cons u us ih =>
    intro p
    have hstep : applyUpds (u :: us) p
        = applyUpds us (if p.1 == u.1 then (p.1, u.2) else p) := rfl
    by_cases hb : (p.1 == u.1) = true
    · rw [hstep, if_pos hb]
      rcases ih (p.1, u.2) with h | ⟨u', hu', hv⟩
      · exact Or.inr ⟨u, List.mem_cons_self _ _, by rw [h]⟩
      · exact Or.inr ⟨u', List.mem_cons_of_mem _ hu', hv⟩
    · rw [hstep, if_neg hb]
      rcases ih p with h | ⟨u', hu', hv⟩
      · exact Or.inl h
      · exact Or.inr ⟨u', List.mem_cons_of_mem _ hu', hv⟩

lemma propagateStep_preserves_Icc (net : CognitiveNetwork ℝ)
    (h : ∀ p ∈ net.nodes, -1 ≤ p.2 ∧ p.2 ≤ 1) :
    ∀ p ∈ (propagateStep Real.tanh net).nodes, -1 ≤ p.2 ∧ p.2 ≤ 1 := by
  intro p hp
  rw [propagateStep_nodes] at hp
  rcases List.mem_map.mp hp with ⟨p0, hp0, rfl⟩
  rcases applyUpds_value_cases (newActivations Real.tanh net) p0 with heq | ⟨u, hu, hv⟩
  · rw [heq]
    exact h p0 hp0
  · rw [hv]
    rcases List.mem_map.mp hu with ⟨q, hq, rfl⟩
    have hqb := h q hq
    have htb := tanh_mem_Icc (incoming net q.1)
    constructor
    · linarith [hqb.1, hqb.2, htb.1, htb.2]
    · linarith [hqb.1, hqb.2, htb.1, htb.2]

/-- C9: if every activation lies in [-1, 1], then after `propagate` with
any number of steps every activation still lies in [-1, 1]. -/
theorem activation_interval_invariant (net : CognitiveNetwork ℝ)
    (h : ∀ p ∈ net.nodes, -1 ≤ p.2 ∧ p.2 ≤ 1) (steps : ℕ) :
    ∀ p ∈ (propagate Real.tanh net steps).nodes, -1 ≤ p.2 ∧ p.2 ≤ 1 := by
  induction steps generalizing net with
  | zero => exact h
  | succ k ih =>
    show ∀ p ∈ (propagate Real.tanh (propagateStep Real.tanh net) k).nodes, _
    exact ih _ (propagateStep_preserves_Icc net h)

/-- Witness for C9: a one-node network propagated three steps. -/
theorem activation_interval_invariant_witness :
    (∀ p ∈ (⟨[("a", 0)], []⟩ : CognitiveNetwork ℝ).nodes, -1 ≤ p.2 ∧ p.2 ≤ 1) ∧
    ∀ p ∈ (propagate Real.tanh (⟨[("a", 0)], []⟩ : CognitiveNetwork ℝ) 3).nodes,
      -1 ≤ p.2 ∧ p.2 ≤ 1 := by
  have hyp : ∀ p ∈ (⟨[("a", 0)], []⟩ : CognitiveNetwork ℝ).nodes,
      -1 ≤ p.2 ∧ p.2 ≤ 1 := by
    intro p hp
    rw [show (⟨[("a", 0)], []⟩ : CognitiveNetwork ℝ).nodes
        = [("a", 0)] from rfl, List.mem_singleton] at hp
    rw [hp]
    norm_num
  exact ⟨hyp, activation_interval_invariant
    (⟨[("a", 0)], []⟩ : CognitiveNetwork ℝ) hyp 3⟩

end CogPhys
